import Mathlib

/-!
Shallow embedding of `src/shared/cpu-set-util.c` (systemd CPU affinity sets).

The C code manipulates a growable bitset `CPUSet { cpu_set_t *set; size_t allocated; }`.
We model the bit buffer as a `List Bool` (bit `i` of the buffer is entry `i`),
`allocated` as the byte count, and the `set` pointer's null/non-null state as `hasSet`.
Allocation failure of `realloc` is modelled by an oracle `alloc : Nat → Bool` telling
whether a reallocation to a given byte size succeeds.  Machine integers: `unsigned`
is modelled as `Nat` together with the explicit bound `2 ^ 32` where the code depends
on it (`safe_atou` range check, the `MIN(cpu_upper, UINT_MAX-1)` overflow guard).
Errno-style results are `Except Int` / `Option Int` with the negative errno values
(-12 = -ENOMEM, -22 = -EINVAL, -34 = -ERANGE).
-/

/-- The `CPUSet` struct of cpu-set-util.h: bit buffer, its size in bytes, and whether
the `set` pointer is non-null (storage is owned). In C, `set` carries `allocated`
bytes, i.e. `8 * allocated` bits. -/
structure CPUSet where
  hasSet : Bool
  allocated : Nat
  buf : List Bool
deriving DecidableEq, Repr

/-- The zero-initialised `(CPUSet) {}`: null pointer, no bytes. -/
def cpuSetEmpty : CPUSet := ⟨false, 0, []⟩

/-- glibc `CPU_ALLOC_SIZE(count)`: bytes needed for `count` CPUs, rounded up to
whole `unsigned long` words (64 bits / 8 bytes on LP64). -/
def CPU_ALLOC_SIZE (count : Nat) : Nat := ((count + 63) / 64) * 8

/-- glibc `CPU_ISSET_S(cpu, setsize, setp)`: bit `cpu` of a `setsize`-byte buffer,
0 when out of bounds. -/
def CPU_ISSET_S (cpu size : Nat) (buf : List Bool) : Bool :=
  decide (cpu < size * 8) && buf.getD cpu false

/-- glibc `CPU_SET_S(cpu, setsize, setp)`: set bit `cpu` if it is in bounds. -/
def CPU_SET_S (cpu size : Nat) (buf : List Bool) : List Bool :=
  if cpu < size * 8 then buf.set cpu true else buf

/-- Membership of index `i` in a `CPUSet`, exactly the `CPU_ISSET_S(i, allocated, set)`
test the C code performs everywhere. -/
def cpuMem (s : CPUSet) (i : Nat) : Bool := CPU_ISSET_S i s.allocated s.buf

/-- The list of members of a `CPUSet`, in increasing order. -/
def cpuMembers (s : CPUSet) : List Nat :=
  (List.range (s.allocated * 8)).filter (fun i => cpuMem s i)

/-- Well-formedness invariant of reachable `CPUSet` values (spec §3: the buffer holds
exactly `allocated` bytes and `allocated` is a multiple of the allocation
granularity). -/
def CPUSetWF (s : CPUSet) : Prop := s.buf.length = s.allocated * 8 ∧ s.allocated % 8 = 0

instance (s : CPUSet) : Decidable (CPUSetWF s) := by unfold CPUSetWF; infer_instance

/-- `cpu_set_realloc(cpu_set, ncpus)`: grow the buffer to `CPU_ALLOC_SIZE(ncpus)`
bytes if that exceeds `allocated`, zero-filling the new tail; no-op otherwise.
On allocation failure returns -ENOMEM and leaves the set untouched. -/
def cpu_set_realloc (alloc : Nat → Bool) (s : CPUSet) (ncpus : Nat) : Except Int CPUSet :=
  let need := CPU_ALLOC_SIZE ncpus
  if need > s.allocated then
    if alloc need then
      .ok ⟨true, need, s.buf ++ List.replicate (need * 8 - s.buf.length) false⟩
    else
      .error (-12)
  else
    .ok s

/-- `cpu_set_add(cpu_set, cpu)`: reject `cpu >= 8192` with -ERANGE, otherwise grow
to hold `cpu + 1` CPUs and set bit `cpu`. -/
def cpu_set_add (alloc : Nat → Bool) (s : CPUSet) (cpu : Nat) : Except Int CPUSet :=
  if cpu ≥ 8192 then
    .error (-34)
  else
    match cpu_set_realloc alloc s (cpu + 1) with
    | .error e => .error e
    | .ok s1 => .ok { s1 with buf := CPU_SET_S cpu s1.allocated s1.buf }

/-- In-place view of `cpu_set_add`: the state of the set after the call together
with the returned error, mirroring that the C call mutates nothing on failure. -/
def cpuSetAddSt (alloc : Nat → Bool) (s : CPUSet) (cpu : Nat) : CPUSet × Option Int :=
  match cpu_set_add alloc s cpu with
  | .ok s1 => (s1, none)
  | .error e => (s, some e)

/-- The loop of `cpu_set_add_all`: `for (cpu_p1 = b->allocated * 8; cpu_p1 > 0; cpu_p1--)`,
adding each set bit of `b` (highest first) to `a`; on the first failure it stops,
returning the error and the state `a` had at that point. -/
def addAllLoop (alloc : Nat → Bool) (b : CPUSet) : CPUSet → Nat → CPUSet × Option Int
  | a, 0 => (a, none)
  | a, n + 1 =>
    if CPU_ISSET_S n b.allocated b.buf then
      match cpu_set_add alloc a n with
      | .error e => (a, some e)
      | .ok a1 => addAllLoop alloc b a1 n
    else
      addAllLoop alloc b a n

/-- `cpu_set_add_all(a, b)`: union `b` into `a`, iterating from the highest bit down.
Returns the final state of `a` and the error code (`none` = success). -/
def cpu_set_add_all (alloc : Nat → Bool) (a b : CPUSet) : CPUSet × Option Int :=
  addAllLoop alloc b a (b.allocated * 8)

/-- Decimal rendering of one CPU index, as `sprintf("%d", i)` produces for the
in-range values the code prints (digits of `i`, most significant first, `"0"` for 0). -/
def decRepr (n : Nat) : List Char :=
  if n = 0 then [Char.ofNat 48] else (Nat.digits 10 n).reverse.map (fun d => Char.ofNat (48 + d))

/-- `cpu_set_to_string(a)`: scan bits `0 .. allocated*8 - 1`; each set bit appends
its decimal index, preceded by a space when the string is non-empty. The empty
set yields the empty string. (The C string is modelled as a `List Char`;
`GREEDY_REALLOC` failure of the output string is not modelled.) -/
def cpu_set_to_string (a : CPUSet) : List Char :=
  (List.range (a.allocated * 8)).foldl
    (fun str i =>
      if CPU_ISSET_S i a.allocated a.buf then
        str ++ (if 0 < str.length then Char.ofNat 32 :: decRepr i else decRepr i)
      else str) []

/-- The delimiter set `WHITESPACE ","` passed to `extract_first_word`. -/
def isDelim (c : Char) : Bool :=
  c == Char.ofNat 32 || c == Char.ofNat 9 || c == Char.ofNat 10 || c == Char.ofNat 13 ||
    c == Char.ofNat 44

/-- The two quote characters honoured by `EXTRACT_QUOTES`. -/
def isQuoteCh (c : Char) : Bool := c == Char.ofNat 34 || c == Char.ofNat 39

/-- Modelled from the spec: the word-reading core of the external tokenizer
`extract_first_word` (not under src/) — read characters of one token until an
unquoted delimiter or the end of input, dropping quote characters and taking
quoted characters literally; an unterminated quote is a tokenization failure
(-EINVAL). First argument: the currently open quote, if any. Returns the word
and the remaining input. -/
def readWordAux : Option Char → List Char → Except Int (List Char × List Char)
  | none, [] => .ok ([], [])
  | some _, [] => .error (-22)
  | none, c :: cs =>
    if isDelim c then
      .ok ([], c :: cs)
    else if isQuoteCh c then
      match readWordAux (some c) cs with
      | .error e => .error e
      | .ok (w, rest) => .ok (w, rest)
    else
      match readWordAux none cs with
      | .error e => .error e
      | .ok (w, rest) => .ok (c :: w, rest)
  | some q, c :: cs =>
    if c == q then
      match readWordAux none cs with
      | .error e => .error e
      | .ok (w, rest) => .ok (w, rest)
    else
      match readWordAux (some q) cs with
      | .error e => .error e
      | .ok (w, rest) => .ok (c :: w, rest)

/-- Modelled from the spec: `extract_first_word(&p, &word, WHITESPACE ",", EXTRACT_QUOTES)`
(external tokenizer, not under src/) — skip leading delimiters; `none` when the
input is exhausted (return value 0), otherwise the next word and the rest. -/
def extract_first_word (p : List Char) : Except Int (Option (List Char × List Char)) :=
  match p.dropWhile isDelim with
  | [] => .ok none
  | c :: cs => (readWordAux none (c :: cs)).map some

/-- Ascii decimal digit test. -/
def isDigitCh (c : Char) : Bool := 48 ≤ c.toNat && c.toNat ≤ 57

/-- Numeric value of a decimal digit string (most significant digit first). -/
def decValue (w : List Char) : Nat := w.foldl (fun a c => 10 * a + (c.toNat - 48)) 0

/-- Modelled from the spec: `safe_atou` (external decimal parser, not under src/) —
a non-empty all-digit word denotes its value; values not representable as
`unsigned` (≥ 2^32) are rejected, as is anything else. -/
def safe_atou (w : List Char) : Option Nat :=
  if !w.isEmpty && w.all isDigitCh then
    if decValue w < 2 ^ 32 then some (decValue w) else none
  else
    none

/-- Modelled from the spec: `parse_range(word, &lower, &upper)` (external helper,
not under src/) — `N` yields `(N, N)`; `N-M` (split at the first dash) yields
`(N, M)`, where an inverted pair is a valid result, not an error. -/
def parse_range (w : List Char) : Option (Nat × Nat) :=
  if w.any (fun c => c == Char.ofNat 45) then
    match safe_atou (w.takeWhile (fun c => !(c == Char.ofNat 45))),
        safe_atou ((w.dropWhile (fun c => !(c == Char.ofNat 45))).drop 1) with
    | some lo, some hi => some (lo, hi)
    | _, _ => none
  else
    (safe_atou w).map (fun n => (n, n))

/-- The diagnostics `parse_cpu_set_full` can emit through the logging collaborator. -/
inductive Diag
  /-- `log_oom()` / `log_syntax(..., "Invalid value for %s: %s", ...)` after a
  tokenizer failure. -/
  | invalidValue
  /-- `log_syntax(..., "Failed to parse CPU affinity", word)`. -/
  | badToken
  /-- `log_syntax(..., LOG_WARNING, "Range is invalid, ignoring", ...)`. -/
  | rangeIgnored
  /-- `log_syntax(..., "Cannot add CPU %u to set", ...)`. -/
  | cannotAdd
deriving DecidableEq, Repr

/-- `UINT_MAX` (2 ^ 32 - 1). -/
def UINTMAX : Nat := 4294967295

/-- The inner loop of `parse_cpu_set_full`:
`for (cpu_p1 = MIN(cpu_upper, UINT_MAX-1) + 1; cpu_p1 > cpu_lower; cpu_p1--)` —
add `count` CPUs `lo + count - 1, …, lo` to the accumulator, highest first. -/
def addDesc (alloc : Nat → Bool) : CPUSet → Nat → Nat → Except Int CPUSet
  | c, _, 0 => .ok c
  | c, lo, k + 1 =>
    match cpu_set_add alloc c (lo + k) with
    | .error e => .error e
    | .ok c1 => addDesc alloc c1 lo k

/-- The token loop of `parse_cpu_set_full`, with explicit fuel (always called with
fuel exceeding the input length, which suffices because each round consumes at
least one character). Carries the accumulator set and the diagnostics emitted
so far; diagnostics are emitted only when `warn` is set, except that nothing on
the sentinel-allocation failure path emits beyond the preceding range warning. -/
def parseLoopF (alloc : Nat → Bool) (warn : Bool) :
    Nat → CPUSet → List Diag → List Char → Except Int CPUSet × List Diag
  | 0, _, ds, _ => (.error (-1000), ds)
  | fuel + 1, c, ds, p =>
    match extract_first_word p with
    | .error e => (.error e, if warn then ds ++ [Diag.invalidValue] else ds)
    | .ok none => (.ok c, ds)
    | .ok (some (word, rest)) =>
      match parse_range word with
      | none => (.error (-22), if warn then ds ++ [Diag.badToken] else ds)
      | some (lo, hi) =>
        if lo > hi then
          let ds1 := if warn then ds ++ [Diag.rangeIgnored] else ds
          match cpu_set_realloc alloc c 1 with
          | .error e => (.error e, ds1)
          | .ok c1 =>
            match addDesc alloc c1 lo (min hi (UINTMAX - 1) + 1 - lo) with
            | .error e => (.error e, if warn then ds1 ++ [Diag.cannotAdd] else ds1)
            | .ok c2 => parseLoopF alloc warn fuel c2 ds1 rest
        else
          match addDesc alloc c lo (min hi (UINTMAX - 1) + 1 - lo) with
          | .error e => (.error e, if warn then ds ++ [Diag.cannotAdd] else ds)
          | .ok c1 => parseLoopF alloc warn fuel c1 ds rest

/-- `parse_cpu_set_full(rvalue, cpu_set, warn, ...)`: parse the whole value into a
fresh set (ownership of which is transferred to the caller on success), returning
the diagnostics emitted along the way. -/
def parse_cpu_set_full (alloc : Nat → Bool) (warn : Bool) (p : List Char) :
    Except Int CPUSet × List Diag :=
  parseLoopF alloc warn (p.length + 1) cpuSetEmpty [] p

/-- Modelled from the spec: `cpu_set_reset` (declared in cpu-set-util.h, not under
src/) — release the storage and return the set to its empty state. -/
def cpu_set_reset (_ : CPUSet) : CPUSet := cpuSetEmpty

/-- `parse_cpu_set_extend(rvalue, old, warn, ...)`: parse (always in warn mode);
an unallocated result resets `old`; if `old` is unallocated, ownership of the
parsed set moves into it; otherwise union the parsed set into `old`. Returns the
final state of `old`, the error code, and the diagnostics. The `warn` parameter
is accepted but, as in the C, the internal parse always warns. -/
def parse_cpu_set_extend (alloc : Nat → Bool) (_warn : Bool) (old : CPUSet) (p : List Char) :
    (CPUSet × Option Int) × List Diag :=
  match parse_cpu_set_full alloc true p with
  | (.error e, ds) => ((old, some e), ds)
  | (.ok cpuset, ds) =>
    if cpuset.hasSet = false then ((cpu_set_reset old, none), ds)
    else if old.hasSet = false then ((cpuset, none), ds)
    else (cpu_set_add_all alloc old cpuset, ds)

/-- Outcomes of the host affinity query `sched_getaffinity` as `cpu_set_malloc`
distinguishes them: success, failure with `errno == EINVAL` (buffer too small),
or any other failure. -/
inductive HostRes
  | success
  | einval
  | other
deriving DecidableEq, Repr

/-- The doubling loop of `cpu_set_malloc`, with explicit fuel standing for the
address space that bounds the real loop. `allocOk n` tells whether `CPU_ALLOC(n)`
succeeds, `host n` is the outcome of `sched_getaffinity` with a buffer for `n`
CPUs. On success the buffer is zeroed (`CPU_ZERO_S`) and returned with the
discovered count. -/
def cpuSetMallocLoop (allocOk : Nat → Bool) (host : Nat → HostRes) :
    Nat → Nat → Option (List Bool × Nat)
  | 0, _ => none
  | fuel + 1, n =>
    if allocOk n then
      match host n with
      | HostRes.success => some (List.replicate (CPU_ALLOC_SIZE n * 8) false, n)
      | HostRes.einval => cpuSetMallocLoop allocOk host fuel (n * 2)
      | HostRes.other => none
    else
      none

/-- `cpu_set_malloc(ncpus)`: probe starting at 1024 CPUs. -/
def cpu_set_malloc (allocOk : Nat → Bool) (host : Nat → HostRes) (fuel : Nat) :
    Option (List Bool × Nat) :=
  cpuSetMallocLoop allocOk host fuel 1024

/-- The always-succeeding allocator. -/
def allocTrue : Nat → Bool := fun _ => true

/-! ### Basic lemmas about sizes and buffers -/

theorem CPU_ALLOC_SIZE_mono {m n : Nat} (h : m ≤ n) : CPU_ALLOC_SIZE m ≤ CPU_ALLOC_SIZE n := by
  unfold CPU_ALLOC_SIZE; omega

theorem le_CPU_ALLOC_SIZE_bits (n : Nat) : n ≤ CPU_ALLOC_SIZE n * 8 := by
  unfold CPU_ALLOC_SIZE; omega

theorem CPU_ALLOC_SIZE_mod (n : Nat) : CPU_ALLOC_SIZE n % 8 = 0 := by
  unfold CPU_ALLOC_SIZE; omega

theorem getD_append_pad (l : List Bool) (k i : Nat) :
    (l ++ List.replicate k false).getD i false = l.getD i false := by
  rw [List.getD_eq_getElem?_getD, List.getD_eq_getElem?_getD, List.getElem?_append]
  by_cases h : i < l.length
  · simp [h]
  · rw [if_neg h, List.getElem?_replicate, List.getElem?_eq_none (Nat.le_of_not_lt h)]
    by_cases h2 : i - l.length < k <;> simp [h2]

theorem getD_beyond (l : List Bool) {i : Nat} (h : l.length ≤ i) : l.getD i false = false := by
  rw [List.getD_eq_getElem?_getD, List.getElem?_eq_none h]; rfl

theorem getD_set_self (l : List Bool) {i : Nat} (h : i < l.length) :
    (l.set i true).getD i false = true := by
  rw [List.getD_eq_getElem?_getD, List.getElem?_set_self h]; rfl

theorem getD_set_other (l : List Bool) {i j : Nat} (h : i ≠ j) :
    (l.set i true).getD j false = l.getD j false := by
  rw [List.getD_eq_getElem?_getD, List.getElem?_set_ne h, List.getD_eq_getElem?_getD]

theorem set_of_getD_true : ∀ (l : List Bool) (i : Nat), l.getD i false = true →
    l.set i true = l
  | [], i, h => by simp [List.getD] at h
  | b :: t, 0, h => by
    simp only [List.getD, List.get?, Option.getD] at h
    simp [List.set, h]
  | b :: t, i + 1, h => by
    simp only [List.getD, List.get?, Option.getD] at h
    simp only [List.set]
    rw [set_of_getD_true t i (by simpa [List.getD] using h)]

/-! ### Lemmas about `cpu_set_realloc` and `cpu_set_add` -/

theorem cpu_set_realloc_ok {alloc : Nat → Bool} {s : CPUSet} {n : Nat} {s' : CPUSet}
    (h : cpu_set_realloc alloc s n = .ok s') :
    s.allocated ≤ s'.allocated ∧ CPU_ALLOC_SIZE n ≤ s'.allocated ∧
      (CPUSetWF s → CPUSetWF s' ∧ ∀ i, cpuMem s' i = cpuMem s i) := by
  unfold cpu_set_realloc at h
  simp only [gt_iff_lt] at h
  split at h
  · rename_i hgrow
    split at h
    · cases h
      refine ⟨Nat.le_of_lt hgrow, Nat.le_refl _, fun hwf => ?_⟩
      obtain ⟨hlen, hmod⟩ := hwf
      constructor
      · exact ⟨by simp [List.length_replicate]; omega, CPU_ALLOC_SIZE_mod n⟩
      · intro i
        simp only [cpuMem, CPU_ISSET_S]
        rw [getD_append_pad]
        by_cases hi : i < s.allocated * 8
        · have hi2 : i < CPU_ALLOC_SIZE n * 8 := by omega
          rw [decide_eq_true hi, decide_eq_true hi2]
        · have hz : s.buf.getD i false = false := getD_beyond _ (by omega)
          rw [hz]
          simp
    · cases h
  · rename_i hno
    cases h
    exact ⟨le_refl _, by omega, fun hwf => ⟨hwf, fun _ => rfl⟩⟩

theorem cpu_set_realloc_of_room {alloc : Nat → Bool} {s : CPUSet} {n : Nat}
    (h : CPU_ALLOC_SIZE n ≤ s.allocated) : cpu_set_realloc alloc s n = .ok s := by
  unfold cpu_set_realloc
  simp only [gt_iff_lt]
  rw [if_neg (by omega)]

theorem cpu_set_add_ok {alloc : Nat → Bool} {s : CPUSet} {cpu : Nat} {s' : CPUSet}
    (h : cpu_set_add alloc s cpu = .ok s') :
    cpu < 8192 ∧ s.allocated ≤ s'.allocated ∧ CPU_ALLOC_SIZE (cpu + 1) ≤ s'.allocated ∧
      (CPUSetWF s → CPUSetWF s' ∧ ∀ i, cpuMem s' i = (cpuMem s i || i == cpu)) := by
  unfold cpu_set_add at h
  split at h
  · cases h
  · rename_i hrange
    have hcpu : cpu < 8192 := by omega
    cases hre : cpu_set_realloc alloc s (cpu + 1) with
    | error e => rw [hre] at h; cases h
    | ok s1 =>
      rw [hre] at h
      cases h
      obtain ⟨hle, hsz, hwfp⟩ := cpu_set_realloc_ok hre
      have hbits : cpu < s1.allocated * 8 := by
        have := le_CPU_ALLOC_SIZE_bits (cpu + 1)
        have := Nat.mul_le_mul_right 8 hsz
        omega
      refine ⟨hcpu, by simpa using hle, by simpa using hsz, fun hwf => ?_⟩
      obtain ⟨hwf1, hmem1⟩ := hwfp hwf
      obtain ⟨hlen1, hmod1⟩ := hwf1
      have hset : CPU_SET_S cpu s1.allocated s1.buf = s1.buf.set cpu true := by
        unfold CPU_SET_S; rw [if_pos hbits]
      constructor
      · exact ⟨by simp [hset, List.length_set, hlen1], hmod1⟩
      · intro i
        simp only [cpuMem, CPU_ISSET_S, hset] at *
        by_cases hic : i = cpu
        · subst hic
          rw [getD_set_self _ (by omega), decide_eq_true hbits]
          simp
        · rw [getD_set_other _ (fun hh => hic hh.symm)]
          have := hmem1 i
          simp only [cpuMem, CPU_ISSET_S] at this
          rw [this]
          simp [hic]

theorem cpu_set_add_of_room {alloc : Nat → Bool} {s : CPUSet} {cpu : Nat}
    (h1 : cpu < 8192) (h2 : CPU_ALLOC_SIZE (cpu + 1) ≤ s.allocated) :
    cpu_set_add alloc s cpu = .ok { s with buf := s.buf.set cpu true } := by
  unfold cpu_set_add
  rw [if_neg (by omega), cpu_set_realloc_of_room h2]
  have hbits : cpu < s.allocated * 8 := by
    have := le_CPU_ALLOC_SIZE_bits (cpu + 1)
    omega
  simp [CPU_SET_S, hbits]

theorem cpu_set_realloc_allocTrue_ok (s : CPUSet) (n : Nat) :
    ∃ s1, cpu_set_realloc allocTrue s n = .ok s1 := by
  unfold cpu_set_realloc
  by_cases hg : CPU_ALLOC_SIZE n > s.allocated
  · rw [if_pos hg, if_pos (show allocTrue (CPU_ALLOC_SIZE n) = true from rfl)]
    exact ⟨_, rfl⟩
  · rw [if_neg hg]
    exact ⟨_, rfl⟩

theorem cpu_set_add_allocTrue_ok {s : CPUSet} {cpu : Nat} (h1 : cpu < 8192) :
    ∃ s', cpu_set_add allocTrue s cpu = .ok s' := by
  unfold cpu_set_add
  rw [if_neg (by omega)]
  obtain ⟨s1, hs1⟩ := cpu_set_realloc_allocTrue_ok s (cpu + 1)
  rw [hs1]
  exact ⟨_, rfl⟩

theorem cpuMem_lt {s : CPUSet} {i : Nat} (h : cpuMem s i = true) : i < s.allocated * 8 := by
  unfold cpuMem CPU_ISSET_S at h
  rw [Bool.and_eq_true, decide_eq_true_iff] at h
  exact h.1

theorem mem_cpuMembers {s : CPUSet} {i : Nat} : i ∈ cpuMembers s ↔ cpuMem s i = true := by
  unfold cpuMembers
  rw [List.mem_filter, List.mem_range]
  constructor
  · exact fun h => h.2
  · exact fun h => ⟨cpuMem_lt h, h⟩

/-- A fold of `cpu_set_add` calls over a list of indices, keeping the state across
failed calls as the C caller would. -/
def addSeq (alloc : Nat → Bool) (s : CPUSet) (l : List Nat) : CPUSet :=
  l.foldl (fun a c => (cpuSetAddSt alloc a c).1) s

/-- The always-failing allocator. -/
def allocFalse : Nat → Bool := fun _ => false

theorem cpuSetAddSt_allocated_mono (alloc : Nat → Bool) (s : CPUSet) (c : Nat) :
    s.allocated ≤ (cpuSetAddSt alloc s c).1.allocated := by
  unfold cpuSetAddSt
  cases h : cpu_set_add alloc s c with
  | error e => exact Nat.le_refl _
  | ok s1 => exact (cpu_set_add_ok h).2.1

theorem addSeq_allocated_mono (alloc : Nat → Bool) (l : List Nat) :
    ∀ s : CPUSet, s.allocated ≤ (addSeq alloc s l).allocated := by
  induction l with
  | nil => exact fun s => Nat.le_refl _
  | cons c t ih =>
    intro s
    calc s.allocated ≤ (cpuSetAddSt alloc s c).1.allocated := cpuSetAddSt_allocated_mono alloc s c
      _ ≤ (addSeq alloc ((cpuSetAddSt alloc s c).1) t).allocated := ih _

theorem cpuSetAddSt_of_mem {alloc : Nat → Bool} {s : CPUSet} {c : Nat}
    (hwf : CPUSetWF s) (hmem : cpuMem s c = true) : (cpuSetAddSt alloc s c).1 = s := by
  obtain ⟨hlen, hmod⟩ := hwf
  have hbits : c < s.allocated * 8 := cpuMem_lt hmem
  by_cases hc : c < 8192
  · have hroom : CPU_ALLOC_SIZE (c + 1) ≤ s.allocated := by
      unfold CPU_ALLOC_SIZE; omega
    have hget : s.buf.getD c false = true := by
      unfold cpuMem CPU_ISSET_S at hmem
      rw [Bool.and_eq_true] at hmem
      exact hmem.2
    unfold cpuSetAddSt
    rw [cpu_set_add_of_room hc hroom]
    simp only [set_of_getD_true s.buf c hget]
  · unfold cpuSetAddSt cpu_set_add
    rw [if_pos (by omega)]

/-- C4: for every set, `add(set, 8191)` succeeds when the allocator can provide the
1024 bytes it may need, while `add(set, c)` for any `c ≥ 8192` fails with -ERANGE
and leaves the set (pointer, allocated size, buffer) exactly as it was. -/
theorem C4_add_boundary (alloc : Nat → Bool) (s : CPUSet)
    (h : alloc (CPU_ALLOC_SIZE 8192) = true) :
    (∃ s', cpu_set_add alloc s 8191 = .ok s') ∧
      ∀ c, 8192 ≤ c → cpuSetAddSt alloc s c = (s, some (-34)) := by
  constructor
  · unfold cpu_set_add
    rw [if_neg (by omega)]
    have : cpu_set_realloc alloc s 8192 = .ok s ∨
        cpu_set_realloc alloc s 8192 =
          .ok ⟨true, CPU_ALLOC_SIZE 8192,
            s.buf ++ List.replicate (CPU_ALLOC_SIZE 8192 * 8 - s.buf.length) false⟩ := by
      unfold cpu_set_realloc
      by_cases hg : CPU_ALLOC_SIZE 8192 > s.allocated
      · rw [if_pos hg, if_pos h]
        exact Or.inr rfl
      · rw [if_neg hg]
        exact Or.inl rfl
    rcases this with h1 | h1 <;> rw [h1] <;> exact ⟨_, rfl⟩
  · intro c hc
    unfold cpuSetAddSt cpu_set_add
    rw [if_pos (by omega)]

/-- Witness for C4 at the empty set with the always-succeeding allocator. -/
theorem C4_add_boundary_witness :
    (∃ s', cpu_set_add allocTrue cpuSetEmpty 8191 = .ok s') ∧
      cpuSetAddSt allocTrue cpuSetEmpty 8192 = (cpuSetEmpty, some (-34)) := by
  have h := C4_add_boundary allocTrue cpuSetEmpty (by decide)
  exact ⟨h.1, h.2 8192 (by decide)⟩

/-- C7: across any sequence of `add` calls the allocated byte count never decreases,
and adding an index that is already a member leaves the set — membership and
allocated size — exactly unchanged. -/
theorem C7_growth_monotone_idempotent :
    (∀ (alloc : Nat → Bool) (s : CPUSet) (l : List Nat),
        s.allocated ≤ (addSeq alloc s l).allocated) ∧
      ∀ (alloc : Nat → Bool) (s : CPUSet) (c : Nat), CPUSetWF s → cpuMem s c = true →
        (cpuSetAddSt alloc s c).1 = s :=
  ⟨fun alloc s l => addSeq_allocated_mono alloc l s,
    fun _ _ _ h1 h2 => cpuSetAddSt_of_mem h1 h2⟩

/-- Witness for C7: a set holding CPU 3, a sequence of adds, and a repeated add of 3. -/
theorem C7_growth_monotone_idempotent_witness :
    (⟨true, 8, (List.replicate 64 false).set 3 true⟩ : CPUSet).allocated ≤
        (addSeq allocTrue ⟨true, 8, (List.replicate 64 false).set 3 true⟩ [3, 70]).allocated ∧
      (cpuSetAddSt allocTrue ⟨true, 8, (List.replicate 64 false).set 3 true⟩ 3).1 =
        ⟨true, 8, (List.replicate 64 false).set 3 true⟩ := by
  have h := C7_growth_monotone_idempotent
  exact ⟨h.1 allocTrue _ [3, 70], h.2 allocTrue _ 3 (by decide) (by decide)⟩

/-! ### Lemmas about the `cpu_set_add_all` loop -/

theorem addAllLoop_succ_true {alloc : Nat → Bool} {b a : CPUSet} {n : Nat} {a1 : CPUSet}
    (hbit : CPU_ISSET_S n b.allocated b.buf = true)
    (ha : cpu_set_add alloc a n = .ok a1) :
    addAllLoop alloc b a (n + 1) = addAllLoop alloc b a1 n := by
  rw [addAllLoop, if_pos hbit, ha]

theorem addAllLoop_succ_err {alloc : Nat → Bool} {b a : CPUSet} {n : Nat} {e : Int}
    (hbit : CPU_ISSET_S n b.allocated b.buf = true)
    (ha : cpu_set_add alloc a n = .error e) :
    addAllLoop alloc b a (n + 1) = (a, some e) := by
  rw [addAllLoop, if_pos hbit, ha]

theorem addAllLoop_succ_false {alloc : Nat → Bool} {b a : CPUSet} {n : Nat}
    (hbit : CPU_ISSET_S n b.allocated b.buf = false) :
    addAllLoop alloc b a (n + 1) = addAllLoop alloc b a n := by
  rw [addAllLoop, if_neg (by simp [hbit])]

theorem addAllLoop_allocTrue_ok {b : CPUSet} (hb : ∀ i, cpuMem b i = true → i < 8192) :
    ∀ (n : Nat) (a : CPUSet), CPUSetWF a →
      (addAllLoop allocTrue b a n).2 = none ∧ CPUSetWF (addAllLoop allocTrue b a n).1 ∧
        ∀ i, cpuMem (addAllLoop allocTrue b a n).1 i =
          (cpuMem a i || (decide (i < n) && cpuMem b i)) := by
  intro n
  induction n with
  | zero =>
    intro a hwf
    exact ⟨rfl, hwf, fun i => by simp [addAllLoop]⟩
  | succ n ih =>
    intro a hwf
    by_cases hbit : CPU_ISSET_S n b.allocated b.buf = true
    · have hbitm : cpuMem b n = true := hbit
      have hn : n < 8192 := hb n hbitm
      obtain ⟨a1, ha1⟩ := cpu_set_add_allocTrue_ok (s := a) hn
      rw [addAllLoop_succ_true hbit ha1]
      obtain ⟨_, _, _, hwfp⟩ := cpu_set_add_ok ha1
      obtain ⟨hwf1, hmem1⟩ := hwfp hwf
      obtain ⟨he, hw, hm⟩ := ih a1 hwf1
      refine ⟨he, hw, fun i => ?_⟩
      rw [hm i, hmem1 i]
      by_cases hin : i = n
      · subst hin
        have h2 : decide (i < i + 1) = true := decide_eq_true (Nat.lt_succ_self i)
        rw [h2]
        simp [hbitm]
      · have hne : (i == n) = false := by simp [hin]
        rw [hne]
        by_cases hlt : i < n
        · rw [decide_eq_true hlt, decide_eq_true (show i < n + 1 by omega)]
          simp
        · rw [decide_eq_false hlt, decide_eq_false (show ¬ i < n + 1 by omega)]
          simp
    · have hbitf : CPU_ISSET_S n b.allocated b.buf = false := by simpa using hbit
      have hbitm : cpuMem b n = false := hbitf
      rw [addAllLoop_succ_false hbitf]
      obtain ⟨he, hw, hm⟩ := ih a hwf
      refine ⟨he, hw, fun i => ?_⟩
      rw [hm i]
      by_cases hin : i = n
      · subst hin
        rw [hbitm]
        simp
      · by_cases hlt : i < n
        · rw [decide_eq_true hlt, decide_eq_true (show i < n + 1 by omega)]
        · rw [decide_eq_false hlt, decide_eq_false (show ¬ i < n + 1 by omega)]

/-- C2: unioning `B` into `A` when every member of both lies below 8192 succeeds, and
membership afterwards is the disjunction of the two original membership tests.
(`B` is only read by the model, mirroring that the C code never writes through `b`.) -/
theorem C2_add_all_union (a b : CPUSet) (hwf : CPUSetWF a)
    (ha : (cpuMembers a).all (fun i => decide (i < 8192)) = true)
    (hb : (cpuMembers b).all (fun i => decide (i < 8192)) = true) :
    (cpu_set_add_all allocTrue a b).2 = none ∧
      ∀ i, cpuMem (cpu_set_add_all allocTrue a b).1 i = (cpuMem a i || cpuMem b i) := by
  have hb2 : ∀ i, cpuMem b i = true → i < 8192 := by
    intro i hi
    exact of_decide_eq_true (List.all_eq_true.mp hb i (mem_cpuMembers.mpr hi))
  obtain ⟨he, _, hm⟩ := addAllLoop_allocTrue_ok hb2 (b.allocated * 8) a hwf
  refine ⟨he, fun i => ?_⟩
  have hdef : cpu_set_add_all allocTrue a b = addAllLoop allocTrue b a (b.allocated * 8) := rfl
  rw [hdef, hm i]
  by_cases hib : cpuMem b i = true
  · rw [decide_eq_true (cpuMem_lt hib)]
    simp
  · have : cpuMem b i = false := by simpa using hib
    rw [this]
    simp

/-- Witness for C2 with `A = {1}`, `B = {3}`, checked at index 3. -/
theorem C2_add_all_union_witness :
    (cpu_set_add_all allocTrue ⟨true, 8, (List.replicate 64 false).set 1 true⟩
        ⟨true, 8, (List.replicate 64 false).set 3 true⟩).2 = none ∧
      cpuMem (cpu_set_add_all allocTrue ⟨true, 8, (List.replicate 64 false).set 1 true⟩
          ⟨true, 8, (List.replicate 64 false).set 3 true⟩).1 3 =
        (cpuMem ⟨true, 8, (List.replicate 64 false).set 1 true⟩ 3 ||
          cpuMem ⟨true, 8, (List.replicate 64 false).set 3 true⟩ 3) := by
  have h := C2_add_all_union ⟨true, 8, (List.replicate 64 false).set 1 true⟩
    ⟨true, 8, (List.replicate 64 false).set 3 true⟩ (by decide) (by decide) (by decide)
  exact ⟨h.1, h.2 3⟩

theorem addAllLoop_no_error {alloc : Nat → Bool} {b : CPUSet} :
    ∀ (n : Nat) (a : CPUSet),
      (∀ i, i < n → CPU_ISSET_S i b.allocated b.buf = true →
        i < 8192 ∧ CPU_ALLOC_SIZE (i + 1) ≤ a.allocated) →
      (addAllLoop alloc b a n).2 = none := by
  intro n
  induction n with
  | zero => intro a _; rfl
  | succ n ih =>
    intro a h
    by_cases hbit : CPU_ISSET_S n b.allocated b.buf = true
    · obtain ⟨hn, hsz⟩ := h n (by omega) hbit
      have hadd := @cpu_set_add_of_room alloc a n hn hsz
      rw [addAllLoop_succ_true hbit hadd]
      apply ih
      intro i hi hb2
      obtain ⟨h1, h2⟩ := h i (by omega) hb2
      exact ⟨h1, h2⟩
    · rw [addAllLoop_succ_false (by simpa using hbit)]
      apply ih
      intro i hi hb2
      exact h i (by omega) hb2

theorem addAllLoop_error_unchanged {alloc : Nat → Bool} {b : CPUSet} :
    ∀ (n : Nat) (a : CPUSet) (e : Int),
      (addAllLoop alloc b a n).2 = some e → (addAllLoop alloc b a n).1 = a := by
  intro n
  induction n with
  | zero =>
    intro a e h
    cases h
  | succ n ih =>
    intro a e h
    by_cases hbit : CPU_ISSET_S n b.allocated b.buf = true
    · cases hadd : cpu_set_add alloc a n with
      | error e2 => rw [addAllLoop_succ_err hbit hadd]
      | ok a1 =>
        rw [addAllLoop_succ_true hbit hadd] at h
        obtain ⟨hn, _, hsz, _⟩ := cpu_set_add_ok hadd
        have hnone : (addAllLoop alloc b a1 n).2 = none := by
          apply addAllLoop_no_error
          intro i hi hbi
          refine ⟨by omega, ?_⟩
          calc CPU_ALLOC_SIZE (i + 1) ≤ CPU_ALLOC_SIZE (n + 1) := CPU_ALLOC_SIZE_mono (by omega)
            _ ≤ a1.allocated := hsz
        rw [hnone] at h
        cases h
    · rw [addAllLoop_succ_false (by simpa using hbit)] at h ⊢
      exact ih a e h

/-- C3: whenever `cpu_set_add_all(A, B)` fails — out-of-range member of `B` or a
failed growth of `A`'s storage, under an arbitrary allocator — the state of `A`
after the call (pointer, allocated size and every buffer bit) is exactly the
state before it. -/
theorem C3_add_all_atomic (alloc : Nat → Bool) (a b : CPUSet) (e : Int)
    (h : (cpu_set_add_all alloc a b).2 = some e) : (cpu_set_add_all alloc a b).1 = a :=
  addAllLoop_error_unchanged (b.allocated * 8) a e h

/-- Witness for C3: the allocator fails, so unioning `{3}` into the empty set
reports -ENOMEM and leaves the destination untouched. -/
theorem C3_add_all_atomic_witness :
    (cpu_set_add_all allocFalse cpuSetEmpty ⟨true, 8, (List.replicate 64 false).set 3 true⟩).2 =
        some (-12) ∧
      (cpu_set_add_all allocFalse cpuSetEmpty
          ⟨true, 8, (List.replicate 64 false).set 3 true⟩).1 = cpuSetEmpty :=
  ⟨by decide, C3_add_all_atomic allocFalse cpuSetEmpty
    ⟨true, 8, (List.replicate 64 false).set 3 true⟩ (-12) (by decide)⟩

/-! ### Tokenizer progress lemmas -/

theorem dropWhile_length_le (f : Char → Bool) : ∀ l : List Char, (l.dropWhile f).length ≤ l.length := by
  intro l
  induction l with
  | nil => exact Nat.le_refl _
  | cons c cs ih =>
    rw [List.dropWhile_cons]
    by_cases h : f c = true
    · rw [if_pos h]
      exact Nat.le_succ_of_le ih
    · rw [if_neg h]

theorem dropWhile_head_not {f : Char → Bool} :
    ∀ {l : List Char} {c : Char} {cs : List Char}, l.dropWhile f = c :: cs → f c = false := by
  intro l
  induction l with
  | nil => intro c cs h; cases h
  | cons x xs ih =>
    intro c cs h
    rw [List.dropWhile_cons] at h
    by_cases hx : f x = true
    · rw [if_pos hx] at h
      exact ih h
    · rw [if_neg hx] at h
      cases h
      simpa using hx

theorem readWordAux_rest_le :
    ∀ (l : List Char) (q : Option Char) {w rest : List Char},
      readWordAux q l = .ok (w, rest) → rest.length ≤ l.length := by
  intro l
  induction l with
  | nil =>
    intro q w rest h
    cases q with
    | none =>
      rw [readWordAux] at h
      cases h
      exact Nat.le_refl _
    | some c => cases h
  | cons c cs ih =>
    intro q w rest h
    cases q with
    | none =>
      rw [readWordAux] at h
      by_cases hd : isDelim c = true
      · rw [if_pos hd] at h
        cases h
        exact Nat.le_refl _
      · rw [if_neg hd] at h
        by_cases hq : isQuoteCh c = true
        · rw [if_pos hq] at h
          cases hr : readWordAux (some c) cs with
          | error e => rw [hr] at h; cases h
          | ok pr =>
            obtain ⟨w1, r1⟩ := pr
            rw [hr] at h
            cases h
            exact Nat.le_succ_of_le (ih _ hr)
        · rw [if_neg hq] at h
          cases hr : readWordAux none cs with
          | error e => rw [hr] at h; cases h
          | ok pr =>
            obtain ⟨w1, r1⟩ := pr
            rw [hr] at h
            cases h
            exact Nat.le_succ_of_le (ih _ hr)
    | some q1 =>
      rw [readWordAux] at h
      by_cases hc : (c == q1) = true
      · rw [if_pos hc] at h
        cases hr : readWordAux none cs with
        | error e => rw [hr] at h; cases h
        | ok pr =>
          obtain ⟨w1, r1⟩ := pr
          rw [hr] at h
          cases h
          exact Nat.le_succ_of_le (ih _ hr)
      · rw [if_neg hc] at h
        cases hr : readWordAux (some q1) cs with
        | error e => rw [hr] at h; cases h
        | ok pr =>
          obtain ⟨w1, r1⟩ := pr
          rw [hr] at h
          cases h
          exact Nat.le_succ_of_le (ih _ hr)

theorem readWordAux_head_rest_le {c : Char} {cs w rest : List Char}
    (hd : isDelim c = false) (h : readWordAux none (c :: cs) = .ok (w, rest)) :
    rest.length ≤ cs.length := by
  rw [readWordAux, if_neg (by simp [hd])] at h
  by_cases hq : isQuoteCh c = true
  · rw [if_pos hq] at h
    cases hr : readWordAux (some c) cs with
    | error e => rw [hr] at h; cases h
    | ok pr =>
      obtain ⟨w1, r1⟩ := pr
      rw [hr] at h
      cases h
      exact readWordAux_rest_le cs _ hr
  · rw [if_neg hq] at h
    cases hr : readWordAux none cs with
    | error e => rw [hr] at h; cases h
    | ok pr =>
      obtain ⟨w1, r1⟩ := pr
      rw [hr] at h
      cases h
      exact readWordAux_rest_le cs _ hr

theorem extract_rest_lt {p w rest : List Char}
    (h : extract_first_word p = .ok (some (w, rest))) : rest.length < p.length := by
  unfold extract_first_word at h
  cases hd : p.dropWhile isDelim with
  | nil => rw [hd] at h; cases h
  | cons c cs =>
    rw [hd] at h
    replace h : Except.map some (readWordAux none (c :: cs)) = .ok (some (w, rest)) := h
    cases hr : readWordAux none (c :: cs) with
    | error e => rw [hr] at h; cases h
    | ok pr =>
      obtain ⟨w1, r1⟩ := pr
      rw [hr] at h
      simp only [Except.map] at h
      cases h
      have h1 : rest.length ≤ cs.length := readWordAux_head_rest_le (dropWhile_head_not hd) hr
      have h2 : (c :: cs).length ≤ p.length := by
        rw [← hd]
        exact dropWhile_length_le isDelim p
      simp only [List.length_cons] at h2
      omega

/-! ### Step equations for the parse loop -/

theorem parseLoopF_end {alloc : Nat → Bool} {warn : Bool} {fuel : Nat} {c : CPUSet}
    {ds : List Diag} {p : List Char} (hE : extract_first_word p = .ok none) :
    parseLoopF alloc warn (fuel + 1) c ds p = (.ok c, ds) := by
  rw [parseLoopF]
  simp only [hE]

theorem parseLoopF_tokenErr {alloc : Nat → Bool} {warn : Bool} {fuel : Nat} {c : CPUSet}
    {ds : List Diag} {p : List Char} {e : Int} (hE : extract_first_word p = .error e) :
    parseLoopF alloc warn (fuel + 1) c ds p =
      (.error e, if warn then ds ++ [Diag.invalidValue] else ds) := by
  rw [parseLoopF]
  simp only [hE]

theorem parseLoopF_badToken {alloc : Nat → Bool} {warn : Bool} {fuel : Nat} {c : CPUSet}
    {ds : List Diag} {p w rest : List Char}
    (hE : extract_first_word p = .ok (some (w, rest))) (hR : parse_range w = none) :
    parseLoopF alloc warn (fuel + 1) c ds p =
      (.error (-22), if warn then ds ++ [Diag.badToken] else ds) := by
  rw [parseLoopF]
  simp only [hE, hR]

theorem parseLoopF_step {alloc : Nat → Bool} {warn : Bool} {fuel : Nat} {c : CPUSet}
    {ds : List Diag} {p w rest : List Char} {lo hi : Nat} {c1 : CPUSet}
    (hE : extract_first_word p = .ok (some (w, rest)))
    (hR : parse_range w = some (lo, hi)) (hle : ¬ lo > hi)
    (hA : addDesc alloc c lo (min hi (UINTMAX - 1) + 1 - lo) = .ok c1) :
    parseLoopF alloc warn (fuel + 1) c ds p = parseLoopF alloc warn fuel c1 ds rest := by
  rw [parseLoopF]
  simp only [hE, hR]
  rw [if_neg hle]
  simp only [hA]

theorem parseLoopF_stepAddErr {alloc : Nat → Bool} {warn : Bool} {fuel : Nat} {c : CPUSet}
    {ds : List Diag} {p w rest : List Char} {lo hi : Nat} {e : Int}
    (hE : extract_first_word p = .ok (some (w, rest)))
    (hR : parse_range w = some (lo, hi)) (hle : ¬ lo > hi)
    (hA : addDesc alloc c lo (min hi (UINTMAX - 1) + 1 - lo) = .error e) :
    parseLoopF alloc warn (fuel + 1) c ds p =
      (.error e, if warn then ds ++ [Diag.cannotAdd] else ds) := by
  rw [parseLoopF]
  simp only [hE, hR]
  rw [if_neg hle]
  simp only [hA]

theorem parseLoopF_inv {alloc : Nat → Bool} {warn : Bool} {fuel : Nat} {c : CPUSet}
    {ds : List Diag} {p w rest : List Char} {lo hi : Nat} {c1 : CPUSet}
    (hE : extract_first_word p = .ok (some (w, rest)))
    (hR : parse_range w = some (lo, hi)) (hgt : lo > hi)
    (hRe : cpu_set_realloc alloc c 1 = .ok c1) :
    parseLoopF alloc warn (fuel + 1) c ds p =
      parseLoopF alloc warn fuel c1 (if warn then ds ++ [Diag.rangeIgnored] else ds) rest := by
  rw [parseLoopF]
  simp only [hE, hR]
  rw [if_pos hgt]
  have hcnt : min hi (UINTMAX - 1) + 1 - lo = 0 := by
    have := Nat.min_le_left hi (UINTMAX - 1)
    omega
  simp only [hRe, hcnt, addDesc]

theorem parseLoopF_invReallocErr {alloc : Nat → Bool} {warn : Bool} {fuel : Nat} {c : CPUSet}
    {ds : List Diag} {p w rest : List Char} {lo hi : Nat} {e : Int}
    (hE : extract_first_word p = .ok (some (w, rest)))
    (hR : parse_range w = some (lo, hi)) (hgt : lo > hi)
    (hRe : cpu_set_realloc alloc c 1 = .error e) :
    parseLoopF alloc warn (fuel + 1) c ds p =
      (.error e, if warn then ds ++ [Diag.rangeIgnored] else ds) := by
  rw [parseLoopF]
  simp only [hE, hR]
  rw [if_pos hgt]
  simp only [hRe]

instance {ε α : Type} [DecidableEq ε] [DecidableEq α] : DecidableEq (Except ε α)
  | .error a, .error b =>
    if h : a = b then .isTrue (by rw [h]) else .isFalse (by intro hh; cases hh; exact h rfl)
  | .error _, .ok _ => .isFalse (by intro hh; cases hh)
  | .ok _, .error _ => .isFalse (by intro hh; cases hh)
  | .ok a, .ok b =>
    if h : a = b then .isTrue (by rw [h]) else .isFalse (by intro hh; cases hh; exact h rfl)

theorem extract_all_delim {p : List Char} (h : p.all isDelim = true) :
    extract_first_word p = .ok none := by
  unfold extract_first_word
  rw [List.dropWhile_eq_nil_iff.mpr (List.all_eq_true.mp h)]

/-- C5: parsing `"9-3"` leniently succeeds with a set that owns storage but has no
member and renders as the empty string, while an empty or delimiter-only input
parses to the fully empty set (no owned storage) with the same empty membership
and rendering — the two differ only in the storage flag. -/
theorem C5_inverted_range_sentinel :
    (∃ s, (parse_cpu_set_full allocTrue true (String.data "9-3")).1 = .ok s ∧
        s.hasSet = true ∧ cpuMembers s = [] ∧ cpu_set_to_string s = []) ∧
      ∀ p : List Char, p.all isDelim = true →
        (parse_cpu_set_full allocTrue true p).1 = .ok cpuSetEmpty ∧
          cpuSetEmpty.hasSet = false ∧ cpuMembers cpuSetEmpty = [] ∧
          cpu_set_to_string cpuSetEmpty = [] := by
  constructor
  · exact ⟨⟨true, 8, List.replicate 64 false⟩, by decide, rfl, by decide, by decide⟩
  · intro p hp
    refine ⟨?_, rfl, rfl, rfl⟩
    unfold parse_cpu_set_full
    rw [parseLoopF_end (extract_all_delim hp)]

/-- Witness for C5's delimiter-only branch at the input `" ,"`. -/
theorem C5_inverted_range_sentinel_witness :
    (∃ s, (parse_cpu_set_full allocTrue true (String.data "9-3")).1 = .ok s ∧
        s.hasSet = true ∧ cpuMembers s = [] ∧ cpu_set_to_string s = []) ∧
      (parse_cpu_set_full allocTrue true (String.data " ,")).1 = .ok cpuSetEmpty := by
  have h := C5_inverted_range_sentinel
  exact ⟨h.1, (h.2 (String.data " ,") (by decide)).1⟩

theorem addAllLoop_nobits {alloc : Nat → Bool} {b : CPUSet}
    (hb : ∀ i, cpuMem b i = false) : ∀ (n : Nat) (a : CPUSet), addAllLoop alloc b a n = (a, none) := by
  intro n
  induction n with
  | zero => intro a; rfl
  | succ n ih =>
    intro a
    rw [addAllLoop_succ_false (hb n)]
    exact ih a

theorem cpuMembers_nil_no_mem {s : CPUSet} (h : cpuMembers s = []) : ∀ i, cpuMem s i = false := by
  intro i
  by_cases hm : cpuMem s i = true
  · have := mem_cpuMembers.mpr hm
    rw [h] at this
    cases this
  · simpa using hm

/-- C10 (implicit): when `old` is non-empty and the text parses to the inverted-range
sentinel — a set owning storage but with no bit set — `parse_cpu_set_extend`
returns success and leaves `old` (membership and buffer) exactly unchanged; the
reset path is taken only for a parse result that owns no storage. -/
theorem C10_sentinel_is_not_reset (alloc : Nat → Bool) (warn : Bool) (old : CPUSet)
    (p : List Char) (tmp : CPUSet) (ds : List Diag)
    (hold : old.hasSet = true)
    (hparse : parse_cpu_set_full alloc true p = (.ok tmp, ds))
    (htmp : tmp.hasSet = true) (hempty : cpuMembers tmp = []) :
    parse_cpu_set_extend alloc warn old p = ((old, none), ds) := by
  unfold parse_cpu_set_extend
  simp only [hparse]
  rw [if_neg (by simp [htmp]), if_neg (by simp [hold])]
  have : cpu_set_add_all alloc old tmp = (old, none) :=
    addAllLoop_nobits (cpuMembers_nil_no_mem hempty) (tmp.allocated * 8) old
  rw [this]

/-- Witness for C10: `old = {1}` extended with `"9-3"` stays `{1}`. -/
theorem C10_sentinel_is_not_reset_witness :
    parse_cpu_set_extend allocTrue true ⟨true, 8, (List.replicate 64 false).set 1 true⟩
        (String.data "9-3") =
      ((⟨true, 8, (List.replicate 64 false).set 1 true⟩, none), [Diag.rangeIgnored]) :=
  C10_sentinel_is_not_reset allocTrue true ⟨true, 8, (List.replicate 64 false).set 1 true⟩
    (String.data "9-3") ⟨true, 8, List.replicate 64 false⟩ [Diag.rangeIgnored]
    rfl (by decide) rfl (by decide)

/-- C6: `parse_cpu_set_extend` first parses the text (always leniently); a result
owning no storage resets `old` to the fully empty state, a result owning storage
replaces an unallocated `old` by ownership transfer, and otherwise is unioned
into `old` by `cpu_set_add_all` with its all-or-nothing contract; concretely,
`{1,2}` extended with `"3"` has membership `{1,2,3}`, and `{1,2}` extended with
`""` is fully empty. -/
theorem C6_extend_cases :
    (∀ (alloc : Nat → Bool) (warn : Bool) (old : CPUSet) (p : List Char)
        (tmp : CPUSet) (ds : List Diag),
      parse_cpu_set_full alloc true p = (.ok tmp, ds) →
        (tmp.hasSet = false →
          parse_cpu_set_extend alloc warn old p = ((cpuSetEmpty, none), ds)) ∧
        (tmp.hasSet = true → old.hasSet = false →
          parse_cpu_set_extend alloc warn old p = ((tmp, none), ds)) ∧
        (tmp.hasSet = true → old.hasSet = true →
          parse_cpu_set_extend alloc warn old p = (cpu_set_add_all alloc old tmp, ds))) ∧
      (cpuMembers (parse_cpu_set_extend allocTrue true
          ⟨true, 8, ((List.replicate 64 false).set 1 true).set 2 true⟩
          (String.data "3")).1.1 = [1, 2, 3] ∧
        (parse_cpu_set_extend allocTrue true
          ⟨true, 8, ((List.replicate 64 false).set 1 true).set 2 true⟩
          (String.data "3")).1.2 = none) ∧
      parse_cpu_set_extend allocTrue true
          ⟨true, 8, ((List.replicate 64 false).set 1 true).set 2 true⟩
          (String.data "") = ((cpuSetEmpty, none), []) := by
  refine ⟨?_, ⟨by decide, by decide⟩, by decide⟩
  intro alloc warn old p tmp ds hparse
  refine ⟨fun h1 => ?_, fun h1 h2 => ?_, fun h1 h2 => ?_⟩
  · unfold parse_cpu_set_extend
    simp only [hparse]
    rw [if_pos h1]
    rfl
  · unfold parse_cpu_set_extend
    simp only [hparse]
    rw [if_neg (by simp [h1]), if_pos h2]
  · unfold parse_cpu_set_extend
    simp only [hparse]
    rw [if_neg (by simp [h1]), if_neg (by simp [h2])]

/-- Witness for C6's quantified part: extending any old set with `""` resets it. -/
theorem C6_extend_cases_witness :
    parse_cpu_set_extend allocTrue false ⟨true, 8, (List.replicate 64 false).set 5 true⟩
        (String.data "") = ((cpuSetEmpty, none), []) :=
  ((C6_extend_cases.1 allocTrue false ⟨true, 8, (List.replicate 64 false).set 5 true⟩
    (String.data "") cpuSetEmpty [] (by decide)).1 rfl)

theorem parseLoopF_strict_nodiag (alloc : Nat → Bool) :
    ∀ (fuel : Nat) (c : CPUSet) (ds : List Diag) (p : List Char),
      (parseLoopF alloc false fuel c ds p).2 = ds := by
  intro fuel
  induction fuel with
  | zero => intro c ds p; rfl
  | succ fuel ih =>
    intro c ds p
    cases hE : extract_first_word p with
    | error e =>
      rw [parseLoopF_tokenErr hE]
      simp
    | ok o =>
      cases o with
      | none => rw [parseLoopF_end hE]
      | some pr =>
        obtain ⟨w, rest⟩ := pr
        cases hR : parse_range w with
        | none =>
          rw [parseLoopF_badToken hE hR]
          simp
        | some lohi =>
          obtain ⟨lo, hi⟩ := lohi
          by_cases hgt : lo > hi
          · cases hRe : cpu_set_realloc alloc c 1 with
            | error e =>
              rw [parseLoopF_invReallocErr hE hR hgt hRe]
              simp
            | ok c1 =>
              rw [parseLoopF_inv hE hR hgt hRe]
              have h2 : (if false = true then ds ++ [Diag.rangeIgnored] else ds) = ds := by simp
              rw [h2]
              exact ih c1 ds rest
          · cases hA : addDesc alloc c lo (min hi (UINTMAX - 1) + 1 - lo) with
            | error e =>
              rw [parseLoopF_stepAddErr hE hR hgt hA]
              simp
            | ok c1 =>
              rw [parseLoopF_step hE hR hgt hA]
              exact ih c1 ds rest

theorem parseLoopF_warn_diag_grows (alloc : Nat → Bool) :
    ∀ (fuel : Nat) (c : CPUSet) (ds : List Diag) (p : List Char) (e : Int),
      p.length < fuel →
      (parseLoopF alloc true fuel c ds p).1 = .error e →
      ds.length < (parseLoopF alloc true fuel c ds p).2.length := by
  intro fuel
  induction fuel with
  | zero => intro c ds p e hf; omega
  | succ fuel ih =>
    intro c ds p e hf herr
    cases hE : extract_first_word p with
    | error e2 =>
      rw [parseLoopF_tokenErr hE]
      simp [List.length_append]
    | ok o =>
      cases o with
      | none =>
        rw [parseLoopF_end hE] at herr
        cases herr
      | some pr =>
        obtain ⟨w, rest⟩ := pr
        have hrest : rest.length < fuel := by
          have := extract_rest_lt hE
          omega
        cases hR : parse_range w with
        | none =>
          rw [parseLoopF_badToken hE hR]
          simp [List.length_append]
        | some lohi =>
          obtain ⟨lo, hi⟩ := lohi
          by_cases hgt : lo > hi
          · cases hRe : cpu_set_realloc alloc c 1 with
            | error e2 =>
              rw [parseLoopF_invReallocErr hE hR hgt hRe]
              simp [List.length_append]
            | ok c1 =>
              rw [parseLoopF_inv hE hR hgt hRe] at herr ⊢
              have := ih c1 (if true then ds ++ [Diag.rangeIgnored] else ds) rest e hrest herr
              simp only [if_true, List.length_append] at this ⊢
              omega
          · cases hA : addDesc alloc c lo (min hi (UINTMAX - 1) + 1 - lo) with
            | error e2 =>
              rw [parseLoopF_stepAddErr hE hR hgt hA]
              simp [List.length_append]
            | ok c1 =>
              rw [parseLoopF_step hE hR hgt hA] at herr ⊢
              exact ih c1 ds rest e hrest herr

/-- C9: when a lenient (warn-mode) parse returns an error, at least one diagnostic
has been emitted through the logging collaborator beforehand; a strict-mode parse
returns the same failures without emitting any diagnostic. -/
theorem C9_warn_mode_diagnostics :
    (∀ (alloc : Nat → Bool) (p : List Char) (e : Int),
        (parse_cpu_set_full alloc true p).1 = .error e →
        (parse_cpu_set_full alloc true p).2 ≠ []) ∧
      ∀ (alloc : Nat → Bool) (p : List Char) (e : Int),
        (parse_cpu_set_full alloc false p).1 = .error e →
        (parse_cpu_set_full alloc false p).2 = [] := by
  constructor
  · intro alloc p e h hnil
    have hg := parseLoopF_warn_diag_grows alloc (p.length + 1) cpuSetEmpty [] p e (by omega) h
    unfold parse_cpu_set_full at hnil
    rw [hnil] at hg
    simp at hg
  · intro alloc p e _
    exact parseLoopF_strict_nodiag alloc (p.length + 1) cpuSetEmpty [] p

/-- Witness for C9: the malformed token `"x"` fails in both modes; with a diagnostic
in warn mode and without one in strict mode. -/
theorem C9_warn_mode_diagnostics_witness :
    (parse_cpu_set_full allocTrue true (String.data "x")).2 ≠ [] ∧
      (parse_cpu_set_full allocTrue false (String.data "x")).2 = [] :=
  ⟨C9_warn_mode_diagnostics.1 allocTrue (String.data "x") (-22) (by decide),
    C9_warn_mode_diagnostics.2 allocTrue (String.data "x") (-22) (by decide)⟩

theorem cpuSetMallocLoop_ok {allocOk : Nat → Bool} {host : Nat → HostRes} :
    ∀ (fuel n : Nat) (buf : List Bool) (m : Nat),
      cpuSetMallocLoop allocOk host fuel n = some (buf, m) →
      ∃ k, m = n * 2 ^ k ∧ allocOk m = true ∧ host m = HostRes.success ∧
        (∀ j, j < k → allocOk (n * 2 ^ j) = true ∧ host (n * 2 ^ j) = HostRes.einval) ∧
        buf = List.replicate (CPU_ALLOC_SIZE m * 8) false := by
  intro fuel
  induction fuel with
  | zero => intro n buf m h; cases h
  | succ fuel ih =>
    intro n buf m h
    rw [cpuSetMallocLoop] at h
    by_cases ha : allocOk n = true
    · rw [if_pos ha] at h
      cases hh : host n with
      | success =>
        rw [hh] at h
        cases h
        exact ⟨0, by simp, by simpa using ha, by simpa using hh, by omega, rfl⟩
      | einval =>
        rw [hh] at h
        obtain ⟨k, hm, hal, hs, hj, hb⟩ := ih (n * 2) buf m h
        refine ⟨k + 1, by rw [hm]; ring, hal, hs, ?_, hb⟩
        intro j hjk
        cases j with
        | zero => exact ⟨by simpa using ha, by simpa using hh⟩
        | succ j1 =>
          have := hj j1 (by omega)
          constructor
          · have h2 : n * 2 ^ (j1 + 1) = n * 2 * 2 ^ j1 := by ring
            rw [h2]
            exact this.1
          · have h2 : n * 2 ^ (j1 + 1) = n * 2 * 2 ^ j1 := by ring
            rw [h2]
            exact this.2
      | other =>
        rw [hh] at h
        cases h
    · rw [if_neg ha] at h
      cases h

/-- C8: whenever the prober returns a buffer, the recorded CPU-count hint is
`1024 * 2 ^ k`, the host query succeeded at that count and failed with EINVAL
(buffer too small) — and only with that indication — at every smaller trial
count `1024 * 2 ^ j`, and the returned buffer is entirely zeroed; moreover an
allocation failure, or any host failure other than EINVAL, makes any iteration
of the loop return failure at once, with no further retry. -/
theorem C8_prober_discovers_size (allocOk : Nat → Bool) (host : Nat → HostRes)
    (fuel : Nat) (buf : List Bool) (m : Nat)
    (h : cpu_set_malloc allocOk host fuel = some (buf, m)) :
    (∃ k, m = 1024 * 2 ^ k ∧ host m = HostRes.success ∧
        (∀ j, j < k → host (1024 * 2 ^ j) = HostRes.einval) ∧
        buf = List.replicate (CPU_ALLOC_SIZE m * 8) false) ∧
      (∀ (n f2 : Nat), allocOk n = false → cpuSetMallocLoop allocOk host (f2 + 1) n = none) ∧
      (∀ (n f2 : Nat), allocOk n = true → host n = HostRes.other →
        cpuSetMallocLoop allocOk host (f2 + 1) n = none) := by
  refine ⟨?_, ?_, ?_⟩
  · obtain ⟨k, hm, _, hs, hj, hb⟩ := cpuSetMallocLoop_ok fuel 1024 buf m h
    exact ⟨k, hm, hs, fun j hjk => (hj j hjk).2, hb⟩
  · intro n f2 ha
    rw [cpuSetMallocLoop, if_neg (by simp [ha])]
  · intro n f2 ha hh
    rw [cpuSetMallocLoop, if_pos ha, hh]

/-- Example host for the C8 witness: the affinity query succeeds only from 4096
CPUs upward and reports EINVAL below. -/
def hostEx (n : Nat) : HostRes := if 4096 ≤ n then HostRes.success else HostRes.einval

/-- Witness for C8: probing against `hostEx` discovers the count 4096. -/
theorem C8_prober_discovers_size_witness :
    ∃ k, (4096 : Nat) = 1024 * 2 ^ k ∧ hostEx 4096 = HostRes.success ∧
      (∀ j, j < k → hostEx (1024 * 2 ^ j) = HostRes.einval) ∧
      List.replicate (CPU_ALLOC_SIZE 4096 * 8) false =
        List.replicate (CPU_ALLOC_SIZE 4096 * 8) false :=
  (C8_prober_discovers_size allocTrue hostEx 10
    (List.replicate (CPU_ALLOC_SIZE 4096 * 8) false) 4096 (by rfl)).1

/-! ### Building a set by a sequence of `cpu_set_add` calls (claim C1) -/

/-- Add a collection of indices in order, with the always-succeeding allocator,
stopping at the first failure as a C caller chaining `r = cpu_set_add(...)` would. -/
def buildAll : List Nat → CPUSet → Except Int CPUSet
  | [], s => .ok s
  | i :: t, s =>
    match cpu_set_add allocTrue s i with
    | .error e => .error e
    | .ok s1 => buildAll t s1

theorem buildAll_ok : ∀ (l : List Nat) (s : CPUSet), (∀ i ∈ l, i < 8192) → CPUSetWF s →
    ∃ s1, buildAll l s = .ok s1 ∧ CPUSetWF s1 ∧
      ∀ i, cpuMem s1 i = (cpuMem s i || decide (i ∈ l)) := by
  intro l
  induction l with
  | nil =>
    intro s _ hwf
    exact ⟨s, rfl, hwf, fun i => by simp⟩
  | cons c t ih =>
    intro s hl hwf
    obtain ⟨s1, hs1⟩ := cpu_set_add_allocTrue_ok (s := s) (hl c (by simp))
    obtain ⟨_, _, _, hwfp⟩ := cpu_set_add_ok hs1
    obtain ⟨hwf1, hmem1⟩ := hwfp hwf
    obtain ⟨s2, hs2, hwf2, hmem2⟩ := ih s1 (fun i hi => hl i (by simp [hi])) hwf1
    refine ⟨s2, ?_, hwf2, fun i => ?_⟩
    · rw [buildAll, hs1]
      exact hs2
    · rw [hmem2 i, hmem1 i]
      by_cases hic : i = c
      · subst hic
        simp
      · by_cases hit : i ∈ t
        · simp [hic, hit]
        · simp [hic, hit]

/-! ### Decimal rendering facts -/

theorem digitCharFacts {d : Nat} (h : d < 10) :
    isDigitCh (Char.ofNat (48 + d)) = true ∧ isDelim (Char.ofNat (48 + d)) = false ∧
      isQuoteCh (Char.ofNat (48 + d)) = false ∧
      ((Char.ofNat (48 + d)) == Char.ofNat 45) = false ∧
      (Char.ofNat (48 + d)).toNat = 48 + d := by
  interval_cases d <;> exact ⟨by decide, by decide, by decide, by decide, by decide⟩

theorem decRepr_ne_nil (m : Nat) : decRepr m ≠ [] := by
  unfold decRepr
  by_cases h : m = 0
  · rw [if_pos h]
    simp
  · rw [if_neg h]
    simp [Nat.digits_ne_nil_iff_ne_zero.mpr h]

theorem decRepr_mem {m : Nat} {c : Char} (hc : c ∈ decRepr m) :
    ∃ d, d < 10 ∧ c = Char.ofNat (48 + d) := by
  unfold decRepr at hc
  by_cases h : m = 0
  · rw [if_pos h] at hc
    simp at hc
    exact ⟨0, by omega, by rw [hc]⟩
  · rw [if_neg h] at hc
    rw [List.mem_map] at hc
    obtain ⟨d, hd, hcd⟩ := hc
    rw [List.mem_reverse] at hd
    exact ⟨d, Nat.digits_lt_base (by norm_num) hd, hcd.symm⟩

theorem decRepr_plain {m : Nat} :
    ∀ c ∈ decRepr m, isDigitCh c = true ∧ isDelim c = false ∧ isQuoteCh c = false ∧
      (c == Char.ofNat 45) = false := by
  intro c hc
  obtain ⟨d, hd, hcd⟩ := decRepr_mem hc
  obtain ⟨h1, h2, h3, h4, _⟩ := digitCharFacts hd
  subst hcd
  exact ⟨h1, h2, h3, h4⟩

theorem foldl_digits_map : ∀ (l : List Nat) (a : Nat), (∀ d ∈ l, d < 10) →
    List.foldl (fun a c => 10 * a + (c.toNat - 48)) a
      (l.map (fun d => Char.ofNat (48 + d))) =
    List.foldl (fun a d => 10 * a + d) a l := by
  intro l
  induction l with
  | nil => intro a _; rfl
  | cons d t ih =>
    intro a hl
    simp only [List.map_cons, List.foldl_cons]
    rw [(digitCharFacts (hl d (by simp))).2.2.2.2]
    have hd : 48 + d - 48 = d := by omega
    rw [hd]
    exact ih _ (fun x hx => hl x (by simp [hx]))

theorem foldl_rev_ofDigits : ∀ (l : List Nat) (a : Nat),
    List.foldl (fun a d => 10 * a + d) a l.reverse =
      a * 10 ^ l.length + Nat.ofDigits 10 l := by
  intro l
  induction l with
  | nil => intro a; simp [Nat.ofDigits_nil]
  | cons d t ih =>
    intro a
    rw [List.reverse_cons, List.foldl_append, ih a]
    simp only [List.foldl_cons, List.foldl_nil, List.length_cons, Nat.ofDigits_cons]
    ring

theorem decValue_decRepr (m : Nat) : decValue (decRepr m) = m := by
  unfold decValue decRepr
  by_cases h : m = 0
  · rw [if_pos h, h]
    decide
  · rw [if_neg h,
      foldl_digits_map _ 0
        (fun d hd => Nat.digits_lt_base (by norm_num) (List.mem_reverse.mp hd)),
      foldl_rev_ofDigits (Nat.digits 10 m) 0]
    simp [Nat.ofDigits_digits]

theorem safe_atou_decRepr {m : Nat} (h : m < 2 ^ 32) : safe_atou (decRepr m) = some m := by
  unfold safe_atou
  have h1 : (!(decRepr m).isEmpty) = true := by
    cases hdm : decRepr m with
    | nil => exact absurd hdm (decRepr_ne_nil m)
    | cons c cs => rfl
  have h2 : (decRepr m).all isDigitCh = true :=
    List.all_eq_true.mpr (fun c hc => (decRepr_plain c hc).1)
  rw [if_pos (by rw [Bool.and_eq_true]; exact ⟨h1, h2⟩), decValue_decRepr,
    if_pos h]

theorem parse_range_decRepr {m : Nat} (h : m < 2 ^ 32) : parse_range (decRepr m) = some (m, m) := by
  unfold parse_range
  have hno : (decRepr m).any (fun c => c == Char.ofNat 45) = false := by
    rw [List.any_eq_false]
    intro c hc
    simp [(decRepr_plain c hc).2.2.2]
  rw [if_neg (by rw [hno]; exact Bool.false_ne_true), safe_atou_decRepr h]
  rfl

/-! ### The rendered form: space-joined decimal tokens -/

/-- The continuation of a space-separated join: a leading space before each
further token. -/
def tailJoin : List (List Char) → List Char
  | [] => []
  | t :: ts => Char.ofNat 32 :: (t ++ tailJoin ts)

/-- Space-separated join of tokens, with no leading or trailing delimiter. -/
def joinSpace : List (List Char) → List Char
  | [] => []
  | t :: ts => t ++ tailJoin ts

theorem tailJoin_shape (ts : List (List Char)) :
    tailJoin ts = [] ∨ ∃ d ds, tailJoin ts = d :: ds ∧ isDelim d = true := by
  cases ts with
  | nil => exact Or.inl rfl
  | cons t ts => exact Or.inr ⟨Char.ofNat 32, t ++ tailJoin ts, rfl, by decide⟩

theorem readWordAux_token : ∀ (w rest : List Char),
    (∀ c ∈ w, isDelim c = false ∧ isQuoteCh c = false) →
    (rest = [] ∨ ∃ d ds, rest = d :: ds ∧ isDelim d = true) →
    readWordAux none (w ++ rest) = .ok (w, rest) := by
  intro w
  induction w with
  | nil =>
    intro rest _ hrest
    rcases hrest with h | ⟨d, ds, hrest, hd⟩
    · subst h
      rfl
    · subst hrest
      simp only [List.nil_append]
      rw [readWordAux, if_pos hd]
  | cons c w1 ih =>
    intro rest hw hrest
    have hc := hw c (by simp)
    rw [List.cons_append, readWordAux, if_neg (by simp [hc.1]), if_neg (by simp [hc.2]),
      ih rest (fun x hx => hw x (by simp [hx])) hrest]

theorem extract_first_word_token {w rest : List Char} (hw : w ≠ [])
    (hplain : ∀ c ∈ w, isDelim c = false ∧ isQuoteCh c = false)
    (hrest : rest = [] ∨ ∃ d ds, rest = d :: ds ∧ isDelim d = true) :
    extract_first_word (w ++ rest) = .ok (some (w, rest)) := by
  unfold extract_first_word
  cases w with
  | nil => exact absurd rfl hw
  | cons c w1 =>
    have hc := hplain c (by simp)
    rw [List.cons_append, List.dropWhile_cons, if_neg (by simp [hc.1])]
    show (readWordAux none (c :: (w1 ++ rest))).map some = .ok (some (c :: w1, rest))
    rw [← List.cons_append, readWordAux_token (c :: w1) rest hplain hrest]
    rfl

theorem extract_first_word_cons_delim {d : Char} {p : List Char} (hd : isDelim d = true) :
    extract_first_word (d :: p) = extract_first_word p := by
  unfold extract_first_word
  rw [List.dropWhile_cons, if_pos hd]

theorem extract_join_cons (m : Nat) (ms : List Nat) :
    extract_first_word (joinSpace ((m :: ms).map decRepr)) =
      .ok (some (decRepr m, tailJoin (ms.map decRepr))) := by
  show extract_first_word (decRepr m ++ tailJoin (ms.map decRepr)) = _
  exact extract_first_word_token (decRepr_ne_nil m)
    (fun c hc => ⟨(decRepr_plain c hc).2.1, (decRepr_plain c hc).2.2.1⟩)
    (tailJoin_shape _)

theorem extract_tailJoin_cons (m : Nat) (ms : List Nat) :
    extract_first_word (tailJoin ((m :: ms).map decRepr)) =
      .ok (some (decRepr m, tailJoin (ms.map decRepr))) := by
  show extract_first_word (Char.ofNat 32 :: (decRepr m ++ tailJoin (ms.map decRepr))) = _
  rw [extract_first_word_cons_delim (by decide)]
  exact extract_first_word_token (decRepr_ne_nil m)
    (fun c hc => ⟨(decRepr_plain c hc).2.1, (decRepr_plain c hc).2.2.1⟩)
    (tailJoin_shape _)

theorem addDesc_single {c c1 : CPUSet} {m : Nat} (h : cpu_set_add allocTrue c m = .ok c1) :
    addDesc allocTrue c m 1 = .ok c1 := by
  rw [addDesc, Nat.add_zero, h]
  rfl

theorem parseLoopF_join (warn : Bool) : ∀ (ms : List Nat) (fuel : Nat) (c : CPUSet)
    (ds : List Diag) (p : List Char),
    (∀ m ∈ ms, m < 8192) → CPUSetWF c →
    (p = joinSpace (ms.map decRepr) ∨ p = tailJoin (ms.map decRepr)) →
    p.length < fuel →
    ∃ c1, parseLoopF allocTrue warn fuel c ds p = (.ok c1, ds) ∧ CPUSetWF c1 ∧
      ∀ i, cpuMem c1 i = (cpuMem c i || decide (i ∈ ms)) := by
  intro ms
  induction ms with
  | nil =>
    intro fuel c ds p _ hwf hp hf
    have hpnil : p = [] := by
      rcases hp with h | h
      · simpa [joinSpace] using h
      · simpa [tailJoin] using h
    subst hpnil
    cases fuel with
    | zero => omega
    | succ f =>
      refine ⟨c, ?_, hwf, fun i => by simp⟩
      rw [parseLoopF_end (by rfl)]
  | cons m ms1 ih =>
    intro fuel c ds p hm hwf hp hf
    cases fuel with
    | zero => omega
    | succ f =>
      have hE : extract_first_word p =
          .ok (some (decRepr m, tailJoin (ms1.map decRepr))) := by
        rcases hp with h | h
        · subst h
          exact extract_join_cons m ms1
        · subst h
          exact extract_tailJoin_cons m ms1
      have hm8 : m < 8192 := hm m (by simp)
      have hR : parse_range (decRepr m) = some (m, m) := parse_range_decRepr (by omega)
      obtain ⟨c1, hc1⟩ := cpu_set_add_allocTrue_ok (s := c) hm8
      obtain ⟨_, _, _, hwfp⟩ := cpu_set_add_ok hc1
      obtain ⟨hwf1, hmem1⟩ := hwfp hwf
      have hcnt : min m (UINTMAX - 1) + 1 - m = 1 := by
        unfold UINTMAX
        omega
      have hA : addDesc allocTrue c m (min m (UINTMAX - 1) + 1 - m) = .ok c1 := by
        rw [hcnt]
        exact addDesc_single hc1
      have hrest : (tailJoin (ms1.map decRepr)).length < f := by
        have := extract_rest_lt hE
        omega
      obtain ⟨c2, hc2, hwf2, hmem2⟩ := ih f c1 ds (tailJoin (ms1.map decRepr))
        (fun x hx => hm x (by simp [hx])) hwf1 (Or.inr rfl) hrest
      refine ⟨c2, ?_, hwf2, fun i => ?_⟩
      · rw [parseLoopF_step hE hR (by omega) hA, hc2]
      · rw [hmem2 i, hmem1 i]
        by_cases him : i = m
        · subst him
          simp
        · by_cases hit : i ∈ ms1
          · simp [him, hit]
          · simp [him, hit]

theorem foldl_if_filter {α β : Type} (p : α → Bool) (g : β → α → β) :
    ∀ (l : List α) (init : β),
      List.foldl (fun acc i => if p i then g acc i else acc) init l =
        List.foldl g init (l.filter p) := by
  intro l
  induction l with
  | nil => intro init; rfl
  | cons c t ih =>
    intro init
    rw [List.foldl_cons, List.filter_cons]
    by_cases hc : p c = true
    · rw [if_pos hc, if_pos hc, List.foldl_cons, ih]
    · rw [if_neg hc, if_neg hc, ih]

theorem to_string_members (s : CPUSet) :
    cpu_set_to_string s =
      (cpuMembers s).foldl
        (fun str i =>
          str ++ (if 0 < str.length then Char.ofNat 32 :: decRepr i else decRepr i)) [] := by
  unfold cpu_set_to_string cpuMembers cpuMem
  exact foldl_if_filter _ _ _ _

theorem fold_join_acc : ∀ (ms : List Nat) (acc : List Char), acc ≠ [] →
    ms.foldl
        (fun str i =>
          str ++ (if 0 < str.length then Char.ofNat 32 :: decRepr i else decRepr i)) acc =
      acc ++ tailJoin (ms.map decRepr) := by
  intro ms
  induction ms with
  | nil => intro acc _; simp [tailJoin]
  | cons m t ih =>
    intro acc hacc
    rw [List.foldl_cons, if_pos (List.length_pos.mpr hacc),
      ih (acc ++ Char.ofNat 32 :: decRepr m) (by simp), List.map_cons]
    show _ = acc ++ (Char.ofNat 32 :: (decRepr m ++ tailJoin (t.map decRepr)))
    rw [List.append_assoc]
    rfl

theorem fold_join (ms : List Nat) :
    ms.foldl
        (fun str i =>
          str ++ (if 0 < str.length then Char.ofNat 32 :: decRepr i else decRepr i)) [] =
      joinSpace (ms.map decRepr) := by
  cases ms with
  | nil => rfl
  | cons m t =>
    rw [List.foldl_cons]
    have h0 : ([] : List Char) ++
        (if 0 < ([] : List Char).length then Char.ofNat 32 :: decRepr m else decRepr m) =
        decRepr m := by simp
    rw [h0, fold_join_acc t (decRepr m) (decRepr_ne_nil m)]
    rfl

theorem cpu_set_to_string_eq (s : CPUSet) :
    cpu_set_to_string s = joinSpace ((cpuMembers s).map decRepr) := by
  rw [to_string_members, fold_join]

theorem cpuMembers_pairwise (s : CPUSet) : List.Pairwise (· < ·) (cpuMembers s) :=
  (List.pairwise_lt_range _).filter _

theorem cpuMem_empty (i : Nat) : cpuMem cpuSetEmpty i = false := by
  simp [cpuMem, CPU_ISSET_S, cpuSetEmpty]

/-- C1: a set built by adding any finite collection of indices below 8192 renders
as the space-joined decimal list of its members, which are strictly ascending
(hence duplicate-free) and are exactly the added indices; re-parsing the rendered
text yields a set with exactly the same membership. -/
theorem C1_to_string_parse_round_trip (l : List Nat) (hl : ∀ i ∈ l, i < 8192)
    (s : CPUSet) (warn : Bool) (hs : buildAll l cpuSetEmpty = .ok s) :
    List.Pairwise (· < ·) (cpuMembers s) ∧
      (∀ i, i ∈ cpuMembers s ↔ i ∈ l) ∧
      cpu_set_to_string s = joinSpace ((cpuMembers s).map decRepr) ∧
      ∃ s2, (parse_cpu_set_full allocTrue warn (cpu_set_to_string s)).1 = .ok s2 ∧
        ∀ i, cpuMem s2 i = true ↔ i ∈ l := by
  obtain ⟨s1, hb, hwf, hmem⟩ := buildAll_ok l cpuSetEmpty hl ⟨rfl, rfl⟩
  rw [hs] at hb
  cases hb
  have hmem2 : ∀ i, cpuMem s i = decide (i ∈ l) := by
    intro i
    rw [hmem i, cpuMem_empty i, Bool.false_or]
  have hiff : ∀ i, i ∈ cpuMembers s ↔ i ∈ l := by
    intro i
    rw [mem_cpuMembers, hmem2 i, decide_eq_true_iff]
  refine ⟨cpuMembers_pairwise s, hiff, cpu_set_to_string_eq s, ?_⟩
  have hms : ∀ m ∈ cpuMembers s, m < 8192 := fun m hm => hl m ((hiff m).mp hm)
  rw [cpu_set_to_string_eq]
  obtain ⟨c1, hc1, _, hmemc⟩ := parseLoopF_join warn (cpuMembers s)
    ((joinSpace ((cpuMembers s).map decRepr)).length + 1) cpuSetEmpty []
    (joinSpace ((cpuMembers s).map decRepr)) hms ⟨rfl, rfl⟩ (Or.inl rfl) (by omega)
  refine ⟨c1, ?_, fun i => ?_⟩
  · unfold parse_cpu_set_full
    rw [hc1]
  · rw [hmemc i, cpuMem_empty i, Bool.false_or, decide_eq_true_iff]
    exact hiff i

/-- Witness for C1 at the collection `[5, 2]`. -/
theorem C1_to_string_parse_round_trip_witness :
    List.Pairwise (· < ·)
        (cpuMembers ⟨true, 8, ((List.replicate 64 false).set 5 true).set 2 true⟩) ∧
      (∀ i, i ∈ cpuMembers ⟨true, 8, ((List.replicate 64 false).set 5 true).set 2 true⟩ ↔
        i ∈ [5, 2]) ∧
      cpu_set_to_string ⟨true, 8, ((List.replicate 64 false).set 5 true).set 2 true⟩ =
        joinSpace ((cpuMembers
          ⟨true, 8, ((List.replicate 64 false).set 5 true).set 2 true⟩).map decRepr) ∧
      ∃ s2, (parse_cpu_set_full allocTrue false (cpu_set_to_string
          ⟨true, 8, ((List.replicate 64 false).set 5 true).set 2 true⟩)).1 = .ok s2 ∧
        ∀ i, cpuMem s2 i = true ↔ i ∈ [5, 2] :=
  C1_to_string_parse_round_trip [5, 2] (by decide)
    ⟨true, 8, ((List.replicate 64 false).set 5 true).set 2 true⟩ false (by decide)
